import Mathlib

/-
Verification of the address-classification and host:port parsing core of
src/net/ipsock.go.

Go strings are embedded as List Char, Go byte slices (IP addresses) as
List Nat, and Go nil-able results as Option.  Code paths that would panic
at runtime (nil-pointer dereference, out-of-range slice index, the fatal
branch of getSingle) are embedded as a top-level Option layer whose none
value marks the panic.
-/

namespace GoNet

/-- Platform capability flags. In the source these are the process-wide
globals supportsIPv4 and supportsIPv6 set once at init; here they are an
explicit immutable context value. -/
structure NetCtx where
  supportsIPv4 : Bool
  supportsIPv6 : Bool
deriving DecidableEq

/-- An IP address: 4 or 16 bytes in the source; embedded as a list of
byte values. -/
structure IPAddr where
  IP : List Nat
  Zone : List Char
deriving DecidableEq

def IPv6len : Nat := 16

/-- Modelled from the spec: the 12-byte IPv4-in-IPv6 mapping header used
to recognize IPv4-mapped IPv6 addresses (the To4 conversion lives in a
source file outside src/; the spec describes v4-capable as fitting an
IPv4 addressing mode and v6-capable as a true 16-byte IPv6 form that is
not IPv4-mapped). -/
def v4MappedHead : List Nat := [0, 0, 0, 0, 0, 0, 0, 0, 0, 0, 0xff, 0xff]

/-- Modelled from the spec: To4 returns the 4-byte form of an address
that fits an IPv4 addressing mode (a 4-byte address, or a 16-byte
IPv4-mapped address), and none otherwise. -/
def To4 (ip : List Nat) : Option (List Nat) :=
  if ip.length = 4 then some ip
  else if ip.length = 16 && ip.take 12 == v4MappedHead then some (ip.drop 12)
  else none

/-- ipv4only from the source: platform supports IPv4 and the address has
a 4-byte form. -/
def ipv4only (ctx : NetCtx) (addr : IPAddr) : Bool :=
  ctx.supportsIPv4 && (To4 addr.IP).isSome

/-- ipv6only from the source: platform supports IPv6, the address is 16
bytes long, and it has no 4-byte form (not IPv4-mapped). -/
def ipv6only (ctx : NetCtx) (addr : IPAddr) : Bool :=
  ctx.supportsIPv6 && addr.IP.length == IPv6len && (To4 addr.IP).isNone

/-- addrWithTags from the source: an endpoint with the single and
fallback tags. -/
structure addrWithTags (α : Type) where
  Addr : α
  single : Bool
  fallback : Bool
deriving DecidableEq

abbrev addrList (α : Type) := List (addrWithTags α)

/-- makeAddrList from the source: a one-element list whose element is
tagged single and not fallback. -/
def makeAddrList (addr : α) : addrList α :=
  [{ Addr := addr, single := true, fallback := false }]

/-- getSingle from the source: scan for elements with the single tag,
remembering the last one and counting; any count other than one is the
fatal (panic) path, embedded as none. -/
def getSingle (addrs : addrList α) : Option α :=
  let r := addrs.foldl
    (fun (acc : Option α × Nat) a =>
      if a.single then (some a.Addr, acc.2 + 1) else acc)
    (none, 0)
  if r.2 = 1 then r.1 else none

/-- getAll from the source: every endpoint in order. -/
def getAll (addrs : addrList α) : List α :=
  addrs.map (·.Addr)

/-- getPrimaries from the source: the endpoints without a fallback tag,
in order. -/
def getPrimaries (addrs : addrList α) : List α :=
  (addrs.filter (fun a => !a.fallback)).map (·.Addr)

/-- getFallbacks from the source: the endpoints with a fallback tag, in
order. -/
def getFallbacks (addrs : addrList α) : List α :=
  (addrs.filter (fun a => a.fallback)).map (·.Addr)

/-- The error values produced by this core.  portError and lookupError
stand for the errors propagated unchanged from the external port parser
and DNS lookup capabilities. -/
inductive NetError where
  | noSuitableAddress
  | addrError (err : String) (addr : List Char)
  | unknownNetwork (net : List Char)
  | portError
  | lookupError
deriving DecidableEq

/-- Which of the two index slices (v4Addrs or v6Addrs) the fallbacks
pointer aims at in filterAndTagAddrs. -/
inductive Fam where
  | v4
  | v6
deriving DecidableEq

/-- The loop state of filterAndTagAddrs: accumulated endpoints, the
index slices of v4 and v6 entries, and the fallbacks pointer (none
embeds the nil pointer). -/
structure TagState (α : Type) where
  addrs : addrList α
  v4Addrs : List Nat
  v6Addrs : List Nat
  fallbacks : Option Fam

def initTagState : TagState α :=
  { addrs := [], v4Addrs := [], v6Addrs := [], fallbacks := none }

/-- In-place update of the element at index i; none embeds the index
out of range panic. -/
def modifyIdx? (l : List α) (i : Nat) (f : α → α) : Option (List α) :=
  match l, i with
  | [], _ => none
  | a :: rest, 0 => some (f a :: rest)
  | a :: rest, Nat.succ n => (modifyIdx? rest n f).map (a :: ·)

/-- One iteration of the record loop of filterAndTagAddrs. -/
def tagStep (ctx : NetCtx) (filt : Option (IPAddr → Bool))
    (inetaddr : IPAddr → α) (s : TagState α) (ip : IPAddr) : TagState α :=
  if (match filt with | some f => !(f ip) | none => false) then s
  else if ipv4only ctx ip then
    { addrs := s.addrs ++ [{ Addr := inetaddr ip, single := false, fallback := false }]
      v4Addrs := s.v4Addrs ++ [s.addrs.length]
      v6Addrs := s.v6Addrs
      fallbacks := if s.fallbacks.isNone then some Fam.v6 else s.fallbacks }
  else if ipv6only ctx ip then
    { addrs := s.addrs ++ [{ Addr := inetaddr ip, single := false, fallback := false }]
      v4Addrs := s.v4Addrs
      v6Addrs := s.v6Addrs ++ [s.addrs.length]
      fallbacks := if s.fallbacks.isNone then some Fam.v4 else s.fallbacks }
  else s

/-- The fallback-tagging loop of filterAndTagAddrs: set the fallback tag
at each listed index. -/
def setFallbacks (addrs : addrList α) : List Nat → Option (addrList α)
  | [] => some addrs
  | i :: rest =>
    match modifyIdx? addrs i (fun a => { a with fallback := true }) with
    | none => none
    | some addrs1 => setFallbacks addrs1 rest

/-- The tail of filterAndTagAddrs after the single index i has been
chosen: set the single tag, dereference the fallbacks pointer (none
embeds the nil-pointer panic), and run the fallback-tagging loop. -/
def finishTag (s : TagState α) (i : Nat) : Option (addrList α × Option NetError) :=
  match modifyIdx? s.addrs i (fun a => { a with single := true }) with
  | none => none
  | some addrs1 =>
    match s.fallbacks with
    | none => none
    | some fam =>
      let idxs := match fam with | Fam.v4 => s.v4Addrs | Fam.v6 => s.v6Addrs
      match setFallbacks addrs1 idxs with
      | none => none
      | some addrs2 => some (addrs2, none)

/-- filterAndTagAddrs from the source: filter the records, build the
endpoint list with v4 and v6 index slices, tag the single address
(preferring the first v4 entry), and tag the fallback family.  The
outer Option embeds the panic paths; the inner pair is the Go
(addrList, error) return value. -/
def filterAndTagAddrs (ctx : NetCtx) (filt : Option (IPAddr → Bool))
    (ips : List IPAddr) (inetaddr : IPAddr → α) : Option (addrList α × Option NetError) :=
  let s := ips.foldl (tagStep ctx filt inetaddr) initTagState
  match s.v4Addrs with
  | i :: _ => finishTag s i
  | [] =>
    match s.v6Addrs with
    | i :: _ => finishTag s i
    | [] => some ([], some NetError.noSuitableAddress)

/- Specification-side recomputations of the loop state, used to state
and prove the claims. -/

/-- Whether the optional filter passes a record (a nil filter passes
everything). -/
def passes (filt : Option (IPAddr → Bool)) (ip : IPAddr) : Bool :=
  match filt with
  | some f => f ip
  | none => true

/-- Whether a record survives the loop of filterAndTagAddrs: it passes
the filter and is v4-capable or v6-capable. -/
def keeps (ctx : NetCtx) (filt : Option (IPAddr → Bool)) (ip : IPAddr) : Bool :=
  passes filt ip && (ipv4only ctx ip || ipv6only ctx ip)

/-- The records retained by filterAndTagAddrs, in input order. -/
def retained (ctx : NetCtx) (filt : Option (IPAddr → Bool)) (ips : List IPAddr) : List IPAddr :=
  ips.filter (keeps ctx filt)

/-- The family a record is classified under by the loop (v4 tested
first), if any. -/
def famOf (ctx : NetCtx) (ip : IPAddr) : Option Fam :=
  if ipv4only ctx ip then some Fam.v4
  else if ipv6only ctx ip then some Fam.v6
  else none

/-- The untagged endpoint list built from the retained records. -/
def rawOf (inetaddr : IPAddr → α) (l : List IPAddr) : addrList α :=
  l.map (fun ip => { Addr := inetaddr ip, single := false, fallback := false })

/-- The positions (counting from n) of the records of family f. -/
def famIdxs (ctx : NetCtx) (f : Fam) : List IPAddr → Nat → List Nat
  | [], _ => []
  | ip :: rest, n =>
    (if famOf ctx ip = some f then [n] else []) ++ famIdxs ctx f rest (n + 1)

/-- Where the fallbacks pointer aims after the loop: the family opposite
to the first retained record, or nothing if no record was retained. -/
def fbOf (ctx : NetCtx) : List IPAddr → Option Fam
  | [] => none
  | ip :: _ =>
    match famOf ctx ip with
    | some Fam.v4 => some Fam.v6
    | some Fam.v6 => some Fam.v4
    | none => none

/-- The loop state determined by a list of retained records. -/
def stateOf (ctx : NetCtx) (inetaddr : IPAddr → α) (l : List IPAddr) : TagState α :=
  { addrs := rawOf inetaddr l
    v4Addrs := famIdxs ctx Fam.v4 l 0
    v6Addrs := famIdxs ctx Fam.v6 l 0
    fallbacks := fbOf ctx l }

/-- First index satisfying a predicate. -/
def findIdxO (p : α → Bool) : List α → Option Nat
  | [] => none
  | a :: l => if p a then some 0 else (findIdxO p l).map (· + 1)

/- The host:port codec. -/

/-- A parse error carrying a message and the offending input, as the Go
AddrError does. -/
structure AddrError where
  Err : String
  Addr : List Char
deriving DecidableEq

/-- Modelled from the spec: the index of the last occurrence of a
character (the helper named last in the sources lives outside src/; the
spec says the port starts after the last colon and the zone after the
last percent sign). -/
def lastIdx (s : List Char) (b : Char) : Option Nat :=
  match s with
  | [] => none
  | c :: rest =>
    match lastIdx rest b with
    | some j => some (j + 1)
    | none => if c = b then some 0 else none

/-- Modelled from the spec: the index of the first occurrence of a
character (the helper named byteIndex in the sources lives outside
src/). -/
def byteIndex (s : List Char) (b : Char) : Option Nat :=
  match s with
  | [] => none
  | c :: rest => if c = b then some 0 else (byteIndex rest b).map (· + 1)

/-- The checks of SplitHostPort that follow host extraction: reject a
stray opening bracket at or after position j and a stray closing
bracket at or after position k, then cut the port after the last colon
(position i). -/
def splitHostPortTail (hostport host : List Char) (i j k : Nat) :
    List Char × List Char × Option AddrError :=
  if (byteIndex (hostport.drop j) '[').isSome then
    (host, [], some ⟨"unexpected \x27[\x27 in address", hostport⟩)
  else if (byteIndex (hostport.drop k) ']').isSome then
    (host, [], some ⟨"unexpected \x27]\x27 in address", hostport⟩)
  else
    (host, hostport.drop (i + 1), none)

/-- SplitHostPort from the source.  The outer Option embeds the two
string index operations (hostport[0] and hostport[end+1]); none would
mean an out-of-range panic.  The triple is the Go (host, port, err)
return value, with host and port holding whatever the named return
values hold when an error is reported. -/
def splitHostPort (hostport : List Char) :
    Option (List Char × List Char × Option AddrError) :=
  match lastIdx hostport ':' with
  | none => some ([], [], some ⟨"missing port in address", hostport⟩)
  | some i =>
    match hostport.get? 0 with
    | none => none
    | some c0 =>
      if c0 = '[' then
        match byteIndex hostport ']' with
        | none => some ([], [], some ⟨"missing \x27]\x27 in address", hostport⟩)
        | some e =>
          if e + 1 = hostport.length then
            some ([], [], some ⟨"missing port in address", hostport⟩)
          else if e + 1 = i then
            some (splitHostPortTail hostport ((hostport.take e).drop 1) i 1 (e + 1))
          else
            match hostport.get? (e + 1) with
            | none => none
            | some c =>
              if c = ':' then
                some ([], [], some ⟨"too many colons in address", hostport⟩)
              else
                some ([], [], some ⟨"missing port in address", hostport⟩)
      else
        let host := hostport.take i
        if (byteIndex host ':').isSome then
          some (host, [], some ⟨"too many colons in address", hostport⟩)
        else if (byteIndex host '%').isSome then
          some (host, [], some ⟨"missing brackets in address", hostport⟩)
        else
          some (splitHostPortTail hostport host i 0 0)

/-- splitHostZone from the source: split at the last percent sign when
it is not the first character; otherwise the whole input is the host
and the zone is empty. -/
def splitHostZone (s : List Char) : List Char × List Char :=
  match lastIdx s '%' with
  | some i => if i > 0 then (s.take i, s.drop (i + 1)) else (s, [])
  | none => (s, [])

/-- JoinHostPort from the source: bracket the host when it contains a
colon or a percent sign. -/
def joinHostPort (host port : List Char) : List Char :=
  if (byteIndex host ':').isSome || (byteIndex host '%').isSome then
    '[' :: host ++ ']' :: ':' :: port
  else
    host ++ ':' :: port

/- The resolution orchestrator. -/

/-- The concrete endpoint values built by the inetaddr closure of
resolveInternetAddrs: TCP, UDP and raw-IP endpoints.  The unreachable
constructor embeds the panic of the default branch of the closure. -/
inductive Addr where
  | tcp (ip : List Nat) (port : Nat) (zone : List Char)
  | udp (ip : List Nat) (port : Nat) (zone : List Char)
  | ipRaw (ip : List Nat) (zone : List Char)
  | unreachable
deriving DecidableEq

/-- The external capabilities consumed by resolveInternetAddrs, which
the spec treats as opaque collaborators: the family-aware port parser,
the strict literal parsers, and the deadline-honoring DNS lookup.  A
none result embeds the error return of the capability. -/
structure Externals where
  parsePort : List Char → List Char → Option Nat
  parseIPv4 : List Char → Option (List Nat)
  parseIPv6 : List Char → Bool → Option (List Nat × List Char)
  lookupIP : List Char → Option (List IPAddr)

def tcpNetNames : List (List Char) :=
  ["tcp".toList, "tcp4".toList, "tcp6".toList,
   "udp".toList, "udp4".toList, "udp6".toList]

def ipNetNames : List (List Char) := ["ip".toList, "ip4".toList, "ip6".toList]

/-- The network-name switch opening resolveInternetAddrs: for transport
networks a non-empty address is split into host and port and the port
is parsed; for raw-IP networks the whole address is the host; any other
name is the unknown network error.  The outer Option embeds a panic
inside SplitHostPort. -/
def resolvePreamble (exts : Externals) (net addr : List Char) :
    Option (Except NetError (List Char × Nat)) :=
  if net ∈ tcpNetNames then
    if addr = [] then some (Except.ok ([], 0))
    else
      match splitHostPort addr with
      | none => none
      | some (_, _, some e) => some (Except.error (NetError.addrError e.Err e.Addr))
      | some (host, port, none) =>
        match exts.parsePort net port with
        | none => some (Except.error NetError.portError)
        | some portnum => some (Except.ok (host, portnum))
  else if net ∈ ipNetNames then
    some (Except.ok (if addr = [] then [] else addr, 0))
  else
    some (Except.error (NetError.unknownNetwork net))

/-- The inetaddr closure of resolveInternetAddrs, building a TCP, UDP or
raw-IP endpoint according to the network name; the default branch is a
panic in the source, embedded as the unreachable endpoint. -/
def inetaddrFor (net : List Char) (portnum : Nat) (ip : IPAddr) : Addr :=
  if net = "tcp".toList ∨ net = "tcp4".toList ∨ net = "tcp6".toList then
    Addr.tcp ip.IP portnum ip.Zone
  else if net = "udp".toList ∨ net = "udp4".toList ∨ net = "udp6".toList then
    Addr.udp ip.IP portnum ip.Zone
  else if net = "ip".toList ∨ net = "ip4".toList ∨ net = "ip6".toList then
    Addr.ipRaw ip.IP ip.Zone
  else
    Addr.unreachable

/-- resolveInternetAddrs from the source: run the network switch, then
for an empty host return the wildcard one-element list; otherwise try
the literal IPv4 parser, then the literal IPv6 parser, each success
short-circuiting to a one-element list; otherwise run the DNS lookup,
pick the family filter from the last character of the network name, and
delegate to filterAndTagAddrs. -/
def resolveInternetAddrs (exts : Externals) (ctx : NetCtx) (net addr : List Char) :
    Option (addrList Addr × Option NetError) :=
  match resolvePreamble exts net addr with
  | none => none
  | some (Except.error e) => some ([], some e)
  | some (Except.ok (host, portnum)) =>
    let inetaddr := inetaddrFor net portnum
    if host = [] then some (makeAddrList (inetaddr ⟨[], []⟩), none)
    else
      match exts.parseIPv4 host with
      | some ip => some (makeAddrList (inetaddr ⟨ip, []⟩), none)
      | none =>
        match exts.parseIPv6 host true with
        | some (ip, zone) => some (makeAddrList (inetaddr ⟨ip, zone⟩), none)
        | none =>
          match exts.lookupIP host with
          | none => some ([], some NetError.lookupError)
          | some ips =>
            let filt0 : Option (IPAddr → Bool) :=
              if net ≠ [] ∧ net.getLast? = some '4' then some (ipv4only ctx) else none
            let filt : Option (IPAddr → Bool) :=
              if net ≠ [] ∧ net.getLast? = some '6' then some (ipv6only ctx) else filt0
            filterAndTagAddrs ctx filt ips inetaddr

/- Lemmas about the character-search helpers. -/

theorem byteIndex_eq_none {s : List Char} {b : Char} :
    byteIndex s b = none ↔ b ∉ s := by
  induction s with
  | nil => simp [byteIndex]
  | cons c rest ih =>
    rw [byteIndex]
    by_cases hc : c = b
    · subst hc
      simp
    · rw [if_neg hc, Option.map_eq_none', ih, List.mem_cons]
      have hbc : ¬b = c := fun h => hc h.symm
      simp [hbc]

theorem byteIndex_some_lt {s : List Char} {b : Char} {j : Nat}
    (h : byteIndex s b = some j) : j < s.length := by
  induction s generalizing j with
  | nil => simp [byteIndex] at h
  | cons c rest ih =>
    rw [byteIndex] at h
    by_cases hc : c = b
    · rw [if_pos hc] at h
      injection h with h1
      subst h1
      simp
    · rw [if_neg hc] at h
      cases hb : byteIndex rest b with
      | none =>
        rw [hb] at h
        exact absurd h (by simp)
      | some j0 =>
        rw [hb] at h
        injection h with h1
        subst h1
        have := ih hb
        simp only [List.length_cons]
        omega

theorem byteIndex_append_cons {xs ys : List Char} {b : Char} (hb : b ∉ xs) :
    byteIndex (xs ++ b :: ys) b = some xs.length := by
  induction xs with
  | nil => simp [byteIndex]
  | cons c rest ih =>
    have hcb : ¬(c = b) := by
      intro h
      exact hb (h ▸ List.mem_cons_self c rest)
    have hrest : b ∉ rest := fun h => hb (List.mem_cons_of_mem c h)
    simp [byteIndex, hcb, ih hrest]

theorem lastIdx_eq_none {s : List Char} {b : Char} :
    lastIdx s b = none ↔ b ∉ s := by
  induction s with
  | nil => simp [lastIdx]
  | cons c rest ih =>
    rw [lastIdx]
    cases h : lastIdx rest b with
    | some j =>
      have hmem : b ∈ rest := by
        by_contra hb
        rw [ih.mpr hb] at h
        exact Option.noConfusion h
      simp [hmem]
    | none =>
      have hnm : b ∉ rest := ih.mp h
      by_cases hc : c = b
      · subst hc
        simp
      · have hbc : ¬b = c := fun hh => hc hh.symm
        simp [hc, hnm, hbc]

theorem lastIdx_append_cons {xs ys : List Char} {b : Char} (hb : b ∉ ys) :
    lastIdx (xs ++ b :: ys) b = some xs.length := by
  induction xs with
  | nil =>
    rw [List.nil_append, lastIdx, lastIdx_eq_none.mpr hb]
    simp
  | cons c rest ih =>
    rw [List.cons_append, lastIdx, ih]
    simp

theorem ne_nil_of_lastIdx_some {s : List Char} {b : Char} {i : Nat}
    (h : lastIdx s b = some i) : s ≠ [] := by
  intro hnil
  subst hnil
  simp [lastIdx] at h

/-- C9: SplitHostPort is total: on every input, including the empty
string, it returns a host and port pair or a classified error; every
string index it takes is in bounds, so the embedded panic value never
arises. -/
theorem splitHostPort_total (s : List Char) : (splitHostPort s).isSome := by
  rw [splitHostPort]
  cases hlast : lastIdx s ':' with
  | none => simp
  | some i =>
    have hne : s ≠ [] := ne_nil_of_lastIdx_some hlast
    obtain ⟨c0, t, rfl⟩ : ∃ c0 t, s = c0 :: t := by
      cases s with
      | nil => exact absurd rfl hne
      | cons a t => exact ⟨a, t, rfl⟩
    rw [List.get?_cons_zero]
    simp only []
    by_cases hc0 : c0 = '['
    · rw [if_pos hc0]
      cases hbe : byteIndex (c0 :: t) ']' with
      | none => simp
      | some e =>
        simp only []
        by_cases hlen : e + 1 = (c0 :: t).length
        · rw [if_pos hlen]
          simp
        · rw [if_neg hlen]
          by_cases hei : e + 1 = i
          · rw [if_pos hei]
            simp
          · rw [if_neg hei]
            have helt : e < (c0 :: t).length := byteIndex_some_lt hbe
            have hlt : e + 1 < (c0 :: t).length := by omega
            cases hget : (c0 :: t).get? (e + 1) with
            | none =>
              rw [List.get?_eq_none] at hget
              omega
            | some c =>
              simp only []
              by_cases hcc : c = ':'
              · rw [if_pos hcc]
                simp
              · rw [if_neg hcc]
                simp
    · rw [if_neg hc0]
      by_cases h1 : (byteIndex ((c0 :: t).take i) ':').isSome
      · simp only [if_pos h1]
        simp
      · rw [if_neg h1]
        by_cases h2 : (byteIndex ((c0 :: t).take i) '%').isSome
        · rw [if_pos h2]
          simp
        · rw [if_neg h2]
          simp

theorem take_len_append (l₁ l₂ : List α) : (l₁ ++ l₂).take l₁.length = l₁ := by
  induction l₁ with
  | nil => simp
  | cons a t ih => simp [ih]

theorem drop_len_append (l₁ l₂ : List α) : (l₁ ++ l₂).drop l₁.length = l₂ := by
  induction l₁ with
  | nil => simp
  | cons a t ih => simp [ih]

/-- C5 counterexample: the claim as stated is false.  The input
described as rejected with a missing closing bracket error is in fact
rejected with the missing port error, and the unbracketed-zone input is
rejected with the too many colons error (the colon check runs before
the percent check), not the missing brackets error. -/
theorem splitHostPort_c5_counterexample :
    splitHostPort ("[::1]x".toList)
      = some ([], [], some ⟨"missing port in address", "[::1]x".toList⟩)
    ∧ ("missing port in address" : String) ≠ "missing \x27]\x27 in address"
    ∧ splitHostPort ("fe80::1%eth0:80".toList)
      = some ("fe80::1%eth0".toList, [],
          some ⟨"too many colons in address", "fe80::1%eth0:80".toList⟩)
    ∧ ("too many colons in address" : String) ≠ "missing brackets in address"
    ∧ splitHostPort ("[abc".toList)
      = some ([], [], some ⟨"missing port in address", "[abc".toList⟩) := by
  refine ⟨by decide, by decide, by decide, by decide, by decide⟩

/-- C5 (amended): SplitHostPort rejects "1:2:3" with the too many
colons error; it rejects "[::1]x" with the missing port error; it
rejects every bracket-opened input that contains a colon but no closing
bracket with the missing closing bracket error; and it rejects the
unbracketed-zone input "fe80::1%eth0:80" with the too many colons error
(the missing brackets error arises only for an unbracketed host that
contains a percent sign but no colon). -/
theorem splitHostPort_c5_amended :
    splitHostPort ("1:2:3".toList)
      = some ("1:2".toList, [], some ⟨"too many colons in address", "1:2:3".toList⟩)
    ∧ splitHostPort ("[::1]x".toList)
      = some ([], [], some ⟨"missing port in address", "[::1]x".toList⟩)
    ∧ (∀ s : List Char, (lastIdx s ':').isSome → s.get? 0 = some '[' →
        byteIndex s ']' = none →
        splitHostPort s = some ([], [], some ⟨"missing \x27]\x27 in address", s⟩))
    ∧ splitHostPort ("fe80::1%eth0:80".toList)
      = some ("fe80::1%eth0".toList, [],
          some ⟨"too many colons in address", "fe80::1%eth0:80".toList⟩) := by
  refine ⟨by decide, by decide, ?_, by decide⟩
  intro s hcol h0 hbr
  obtain ⟨i, hi⟩ := Option.isSome_iff_exists.mp hcol
  rw [splitHostPort]
  simp only [hi, h0, hbr]
  simp

theorem splitHostPort_c5_amended_witness :
    ((lastIdx ("[::1".toList) ':').isSome
      ∧ ("[::1".toList).get? 0 = some '['
      ∧ byteIndex ("[::1".toList) ']' = none)
    ∧ splitHostPort ("[::1".toList)
        = some ([], [], some ⟨"missing \x27]\x27 in address", "[::1".toList⟩) :=
  ⟨⟨by decide, by decide, by decide⟩,
   splitHostPort_c5_amended.2.2.1 ("[::1".toList) (by decide) (by decide) (by decide)⟩

/-- C8: splitHostZone splits its input at the last percent sign into
host and zone exactly when that sign is not the first character, and
otherwise (leading percent sign as the only one, or no percent sign at
all) returns the whole input as host with an empty zone. -/
theorem splitHostZone_spec :
    (∀ host zone : List Char, host ≠ [] → '%' ∉ zone →
        splitHostZone (host ++ '%' :: zone) = (host, zone))
    ∧ (∀ s : List Char, '%' ∉ s.drop 1 → splitHostZone s = (s, [])) := by
  constructor
  · intro host zone hne hz
    rw [splitHostZone]
    rw [lastIdx_append_cons hz]
    have hpos : 0 < host.length := List.length_pos.mpr hne
    simp only [if_pos hpos, take_len_append]
    have hd : (host ++ '%' :: zone).drop (host.length + 1) = zone := by
      have h1 : host ++ '%' :: zone = (host ++ ['%']) ++ zone := by simp
      have h2 : (host ++ ['%']).length = host.length + 1 := by simp
      rw [h1, ← h2, drop_len_append]
    rw [hd]
  · intro s h
    cases s with
    | nil => simp [splitHostZone, lastIdx]
    | cons c t =>
      have ht : '%' ∉ t := by simpa using h
      rw [splitHostZone, lastIdx, lastIdx_eq_none.mpr ht]
      by_cases hc : c = '%'
      · simp [hc]
      · simp [hc]

theorem splitHostZone_spec_witness :
    (("fe80::1".toList ≠ ([] : List Char)) ∧ '%' ∉ "eth0".toList
      ∧ splitHostZone ("fe80::1".toList ++ '%' :: "eth0".toList)
          = ("fe80::1".toList, "eth0".toList))
    ∧ ('%' ∉ ("%eth0".toList).drop 1
      ∧ splitHostZone ("%eth0".toList) = ("%eth0".toList, [])) :=
  ⟨⟨by decide, by decide,
    splitHostZone_spec.1 ("fe80::1".toList) ("eth0".toList) (by decide) (by decide)⟩,
   ⟨by decide, splitHostZone_spec.2 ("%eth0".toList) (by decide)⟩⟩

/-- C6 counterexample: the claim as stated is false.  The host "h"
satisfies every stated condition (no brackets, and no colon or percent
sign, so it is left unbracketed), yet with the port "1:2" the
round trip fails: the joined string has its last colon inside the port,
so SplitHostPort reports too many colons instead of returning the pair.
-/
theorem joinSplit_c6_counterexample :
    ('[' ∉ "h".toList) ∧ (']' ∉ "h".toList)
    ∧ byteIndex ("h".toList) ':' = none ∧ byteIndex ("h".toList) '%' = none
    ∧ splitHostPort (joinHostPort ("h".toList) ("1:2".toList))
        ≠ some ("h".toList, "1:2".toList, none)
    ∧ splitHostPort (joinHostPort ("h".toList) ("]x".toList))
        ≠ some ("h".toList, "]x".toList, none)
    ∧ splitHostPort (joinHostPort ("h".toList) ("[x".toList))
        ≠ some ("h".toList, "[x".toList, none) := by
  refine ⟨by decide, by decide, by decide, by decide, by decide, by decide, by decide⟩

/-- C6 (amended): for every host containing no bracket and every port
containing no colon and no bracket, SplitHostPort of
JoinHostPort(host, port) returns exactly (host, port) with no error,
including when host or port is empty. -/
theorem splitHostPort_joinHostPort (host port : List Char)
    (hhl : '[' ∉ host) (hhr : ']' ∉ host)
    (hpc : ':' ∉ port) (hpl : '[' ∉ port) (hpr : ']' ∉ port) :
    splitHostPort (joinHostPort host port) = some (host, port, none) := by
  rw [joinHostPort]
  by_cases hb : (byteIndex host ':').isSome || (byteIndex host '%').isSome
  · -- bracketed form
    rw [if_pos hb, splitHostPort]
    have hrb : ']' ∉ '[' :: host := by
      intro h
      rcases List.mem_cons.mp h with h1 | h2
      · exact absurd h1 (by decide)
      · exact hhr h2
    have hl : lastIdx ('[' :: host ++ ']' :: ':' :: port) ':' = some (host.length + 2) := by
      have h1 : '[' :: host ++ ']' :: ':' :: port = ('[' :: host ++ [']']) ++ ':' :: port := by
        simp
      rw [h1, lastIdx_append_cons hpc]
      simp
    have hg : ('[' :: host ++ ']' :: ':' :: port).get? 0 = some '[' := rfl
    have hbi : byteIndex ('[' :: host ++ ']' :: ':' :: port) ']' = some (host.length + 1) := by
      have h1 : '[' :: host ++ ']' :: ':' :: port = ('[' :: host) ++ ']' :: (':' :: port) := by
        simp
      rw [h1, byteIndex_append_cons hrb]
      simp
    have hlen : ¬(host.length + 1 + 1 = ('[' :: host ++ ']' :: ':' :: port).length) := by
      simp
    have htake : (('[' :: host ++ ']' :: ':' :: port).take (host.length + 1)).drop 1 = host := by
      rw [List.cons_append, List.take_succ_cons, take_len_append]
      rfl
    have hnl : byteIndex (('[' :: host ++ ']' :: ':' :: port).drop 1) '[' = none := by
      have h0 : ('[' :: host ++ ']' :: ':' :: port).drop 1 = host ++ ']' :: ':' :: port := rfl
      rw [h0, byteIndex_eq_none]
      intro h
      rcases List.mem_append.mp h with h1 | h2
      · exact hhl h1
      · rcases List.mem_cons.mp h2 with h3 | h4
        · exact absurd h3 (by decide)
        · rcases List.mem_cons.mp h4 with h5 | h6
          · exact absurd h5 (by decide)
          · exact hpl h6
    have hnr : byteIndex (('[' :: host ++ ']' :: ':' :: port).drop (host.length + 1 + 1)) ']'
        = none := by
      have h0 : ('[' :: host ++ ']' :: ':' :: port).drop (host.length + 1 + 1)
          = ':' :: port := by
        have h1 : '[' :: host ++ ']' :: ':' :: port = ('[' :: host ++ [']']) ++ ':' :: port := by
          simp
        have h2 : ('[' :: host ++ [']']).length = host.length + 1 + 1 := by simp
        rw [h1, ← h2, drop_len_append]
      rw [h0, byteIndex_eq_none]
      intro h
      rcases List.mem_cons.mp h with h1 | h2
      · exact absurd h1 (by decide)
      · exact hpr h2
    have hd3 : ('[' :: host ++ ']' :: ':' :: port).drop (host.length + 2 + 1) = port := by
      have h1 : '[' :: host ++ ']' :: ':' :: port = ('[' :: host ++ [']', ':']) ++ port := by
        simp
      have h2 : ('[' :: host ++ [']', ':']).length = host.length + 2 + 1 := by simp
      rw [h1, ← h2, drop_len_append]
    have hei : host.length + 1 + 1 = host.length + 2 := rfl
    simp only [hl, hg, hbi, eq_self_iff_true, if_true]
    rw [if_neg hlen]
    simp only [hei, eq_self_iff_true, if_true, htake, splitHostPortTail, hnl, hnr,
      Option.isSome_none, Bool.false_eq_true, if_false, hd3]
  · -- unbracketed form
    rw [if_neg hb, splitHostPort]
    have hbc : byteIndex host ':' = none := by
      cases h : byteIndex host ':' with
      | none => rfl
      | some v => exact absurd (by simp [h]) hb
    have hbp : byteIndex host '%' = none := by
      cases h : byteIndex host '%' with
      | none => rfl
      | some v => exact absurd (by simp [h]) hb
    have hl : lastIdx (host ++ ':' :: port) ':' = some host.length :=
      lastIdx_append_cons hpc
    have hc0 : ∃ c0 rest, host ++ ':' :: port = c0 :: rest ∧ ¬(c0 = '[') := by
      cases hh : host with
      | nil => exact ⟨':', port, by simp, by decide⟩
      | cons a t =>
        refine ⟨a, t ++ ':' :: port, by simp, ?_⟩
        intro h
        exact hhl (hh ▸ h ▸ List.mem_cons_self a t)
    obtain ⟨c0, rest, heq, hc0ne⟩ := hc0
    have hg : (host ++ ':' :: port).get? 0 = some c0 := by
      rw [heq, List.get?_cons_zero]
    have hnl : byteIndex ((host ++ ':' :: port).drop 0) '[' = none := by
      rw [List.drop_zero, byteIndex_eq_none]
      intro h
      rcases List.mem_append.mp h with h1 | h2
      · exact hhl h1
      · rcases List.mem_cons.mp h2 with h3 | h4
        · exact absurd h3 (by decide)
        · exact hpl h4
    have hnr : byteIndex ((host ++ ':' :: port).drop 0) ']' = none := by
      rw [List.drop_zero, byteIndex_eq_none]
      intro h
      rcases List.mem_append.mp h with h1 | h2
      · exact hhr h1
      · rcases List.mem_cons.mp h2 with h3 | h4
        · exact absurd h3 (by decide)
        · exact hpr h4
    have hd : (host ++ ':' :: port).drop (host.length + 1) = port := by
      have h1 : host ++ ':' :: port = (host ++ [':']) ++ port := by simp
      have h2 : (host ++ [':']).length = host.length + 1 := by simp
      rw [h1, ← h2, drop_len_append]
    simp only [hl, hg]
    rw [if_neg hc0ne]
    simp only [take_len_append, hbc, hbp, Option.isSome_none, Bool.false_eq_true, if_false,
      splitHostPortTail, hnl, hnr, hd]

theorem splitHostPort_joinHostPort_witness :
    (('[' ∉ "a".toList) ∧ (']' ∉ "a".toList) ∧ (':' ∉ "80".toList)
      ∧ ('[' ∉ "80".toList) ∧ (']' ∉ "80".toList))
    ∧ splitHostPort (joinHostPort ("a".toList) ("80".toList))
        = some ("a".toList, "80".toList, none) :=
  ⟨⟨by decide, by decide, by decide, by decide, by decide⟩,
   splitHostPort_joinHostPort ("a".toList) ("80".toList)
     (by decide) (by decide) (by decide) (by decide) (by decide)⟩

/- Lemmas about the tagging machinery. -/

theorem modifyIdx?_isSome {l : List α} {i : Nat} {f : α → α} :
    (modifyIdx? l i f).isSome ↔ i < l.length := by
  induction l generalizing i with
  | nil => simp [modifyIdx?]
  | cons a rest ih =>
    cases i with
    | zero => simp [modifyIdx?]
    | succ n =>
      have hih : (modifyIdx? rest n f).isSome = true ↔ n < rest.length := ih
      rw [modifyIdx?]
      constructor
      · intro hs
        have h1 : (modifyIdx? rest n f).isSome := by
          cases hm : modifyIdx? rest n f with
          | none => rw [hm] at hs; simp at hs
          | some r => simp
        have h2 := hih.mp h1
        simp only [List.length_cons]
        omega
      · intro hlt
        have h2 : n < rest.length := by
          simp only [List.length_cons] at hlt
          omega
        have h3 := hih.mpr h2
        cases hm : modifyIdx? rest n f with
        | none => rw [hm] at h3; simp at h3
        | some r => simp [hm]

theorem modifyIdx?_length {l l' : List α} {i : Nat} {f : α → α}
    (h : modifyIdx? l i f = some l') : l'.length = l.length := by
  induction l generalizing i l' with
  | nil => simp [modifyIdx?] at h
  | cons a rest ih =>
    cases i with
    | zero =>
      rw [modifyIdx?] at h
      injection h with h1
      subst h1
      simp
    | succ n =>
      rw [modifyIdx?] at h
      cases hm : modifyIdx? rest n f with
      | none => rw [hm] at h; simp at h
      | some r' =>
        rw [hm] at h
        injection h with h1
        subst h1
        simp [ih hm]

theorem modifyIdx?_get? {l l' : List α} {i : Nat} {f : α → α}
    (h : modifyIdx? l i f = some l') (j : Nat) :
    l'.get? j = if j = i then (l.get? j).map f else l.get? j := by
  induction l generalizing i j l' with
  | nil => simp [modifyIdx?] at h
  | cons a rest ih =>
    cases i with
    | zero =>
      rw [modifyIdx?] at h
      injection h with h1
      subst h1
      cases j with
      | zero => simp
      | succ m => simp
    | succ n =>
      rw [modifyIdx?] at h
      cases hm : modifyIdx? rest n f with
      | none => rw [hm] at h; simp at h
      | some r' =>
        rw [hm] at h
        injection h with h1
        subst h1
        cases j with
        | zero => simp
        | succ m =>
          have := ih hm m
          simp only [List.get?_cons_succ]
          rw [this]
          by_cases hmn : m = n
          · simp [hmn]
          · simp [hmn, fun hh : m + 1 = n + 1 => hmn (Nat.succ_injective hh)]

theorem setFallbacks_isSome {l : addrList α} {idxs : List Nat}
    (h : ∀ i ∈ idxs, i < l.length) : (setFallbacks l idxs).isSome := by
  induction idxs generalizing l with
  | nil => simp [setFallbacks]
  | cons i rest ih =>
    rw [setFallbacks]
    have hi : i < l.length := h i (List.mem_cons_self i rest)
    cases hm : modifyIdx? l i (fun a => { a with fallback := true }) with
    | none =>
      have hsm : (modifyIdx? l i (fun a => { a with fallback := true })).isSome :=
        modifyIdx?_isSome.mpr hi
      rw [hm] at hsm
      simp at hsm
    | some l1 =>
      apply ih
      intro x hx
      rw [modifyIdx?_length hm]
      exact h x (List.mem_cons_of_mem i hx)

theorem setFallbacks_get? {l l' : addrList α} {idxs : List Nat}
    (h : setFallbacks l idxs = some l') (j : Nat) :
    l'.get? j = if j ∈ idxs then (l.get? j).map (fun a => { a with fallback := true })
      else l.get? j := by
  induction idxs generalizing l with
  | nil =>
    rw [setFallbacks] at h
    injection h with h1
    subst h1
    simp
  | cons i rest ih =>
    rw [setFallbacks] at h
    cases hm : modifyIdx? l i (fun a => { a with fallback := true }) with
    | none => rw [hm] at h; exact absurd h (by simp)
    | some l1 =>
      rw [hm] at h
      have hrec := ih h
      rw [hrec, modifyIdx?_get? hm j]
      have hcomp : ((fun (a : addrWithTags α) => { a with fallback := true })
            ∘ (fun a => { a with fallback := true }))
          = (fun (a : addrWithTags α) => { a with fallback := true }) :=
        funext (fun a => rfl)
      by_cases hji : j = i
      · subst hji
        by_cases hjr : j ∈ rest
        · simp [hjr, List.mem_cons, Option.map_map, hcomp]
        · simp [hjr, List.mem_cons]
      · by_cases hjr : j ∈ rest
        · simp [List.mem_cons, hji, hjr]
        · simp [List.mem_cons, hji, hjr]

theorem famOf_isSome_of_keeps {ctx : NetCtx} {filt : Option (IPAddr → Bool)} {ip : IPAddr}
    (h : keeps ctx filt ip = true) : (famOf ctx ip).isSome := by
  rw [keeps, Bool.and_eq_true, Bool.or_eq_true] at h
  rw [famOf]
  rcases h.2 with h4 | h6
  · simp [h4]
  · by_cases h4 : ipv4only ctx ip = true
    · simp [h4]
    · simp [h4, h6]

theorem retained_cons (ctx : NetCtx) (filt : Option (IPAddr → Bool)) (ip : IPAddr)
    (t : List IPAddr) :
    retained ctx filt (ip :: t)
      = if keeps ctx filt ip then ip :: retained ctx filt t else retained ctx filt t := by
  by_cases hk : keeps ctx filt ip <;> simp [retained, List.filter_cons, hk]

theorem mem_retained_famOf {ctx : NetCtx} {filt : Option (IPAddr → Bool)} {ips : List IPAddr} :
    ∀ ip ∈ retained ctx filt ips, (famOf ctx ip).isSome := by
  intro ip hip
  exact famOf_isSome_of_keeps (List.of_mem_filter hip)

theorem famIdxs_append (ctx : NetCtx) (f : Fam) (l₁ l₂ : List IPAddr) (n : Nat) :
    famIdxs ctx f (l₁ ++ l₂) n = famIdxs ctx f l₁ n ++ famIdxs ctx f l₂ (n + l₁.length) := by
  induction l₁ generalizing n with
  | nil => simp [famIdxs]
  | cons ip t ih =>
    show (if famOf ctx ip = some f then [n] else []) ++ famIdxs ctx f (t ++ l₂) (n + 1)
        = ((if famOf ctx ip = some f then [n] else []) ++ famIdxs ctx f t (n + 1))
          ++ famIdxs ctx f l₂ (n + (t.length + 1))
    rw [ih (n + 1), List.append_assoc]
    have h1 : n + 1 + t.length = n + (t.length + 1) := by omega
    rw [h1]

theorem famIdxs_mem_lt {ctx : NetCtx} {f : Fam} {l : List IPAddr} {n : Nat} :
    ∀ x ∈ famIdxs ctx f l n, x < n + l.length := by
  induction l generalizing n with
  | nil => simp [famIdxs]
  | cons ip t ih =>
    intro x hx
    rw [famIdxs] at hx
    rcases List.mem_append.mp hx with h1 | h2
    · by_cases hfam : famOf ctx ip = some f
      · rw [if_pos hfam] at h1
        have : x = n := List.mem_singleton.mp h1
        simp [this]
      · rw [if_neg hfam] at h1
        exact absurd h1 (List.not_mem_nil x)
    · have := ih x h2
      simp only [List.length_cons]
      omega

theorem mem_famIdxs {ctx : NetCtx} {f : Fam} {l : List IPAddr} {n x : Nat} :
    x ∈ famIdxs ctx f l n
      ↔ ∃ j, x = n + j ∧ ∃ ip, l.get? j = some ip ∧ famOf ctx ip = some f := by
  induction l generalizing n x with
  | nil => simp [famIdxs]
  | cons ip t ih =>
    rw [famIdxs]
    constructor
    · intro hx
      rcases List.mem_append.mp hx with h1 | h2
      · by_cases hfam : famOf ctx ip = some f
        · rw [if_pos hfam] at h1
          exact ⟨0, by simpa using List.mem_singleton.mp h1, ip, rfl, hfam⟩
        · rw [if_neg hfam] at h1
          exact absurd h1 (List.not_mem_nil x)
      · obtain ⟨j, hxj, ip', hg, hf⟩ := ih.mp h2
        exact ⟨j + 1, by omega, ip', by simpa using hg, hf⟩
    · rintro ⟨j, rfl, ip', hg, hf⟩
      cases j with
      | zero =>
        rw [List.get?_cons_zero] at hg
        injection hg with hg1
        subst hg1
        apply List.mem_append.mpr
        left
        rw [if_pos hf]
        simp
      | succ j0 =>
        apply List.mem_append.mpr
        right
        apply ih.mpr
        exact ⟨j0, by omega, ip', by simpa using hg, hf⟩

theorem famIdxs_eq_nil_iff {ctx : NetCtx} {f : Fam} {l : List IPAddr} {n : Nat} :
    famIdxs ctx f l n = [] ↔ ∀ ip ∈ l, ¬(famOf ctx ip = some f) := by
  induction l generalizing n with
  | nil => simp [famIdxs]
  | cons ip t ih =>
    rw [famIdxs]
    by_cases hfam : famOf ctx ip = some f
    · simp [hfam]
    · simp only [if_neg hfam, List.nil_append]
      rw [ih]
      simp [hfam]

theorem rawOf_append (inetaddr : IPAddr → α) (l₁ l₂ : List IPAddr) :
    rawOf inetaddr (l₁ ++ l₂) = rawOf inetaddr l₁ ++ rawOf inetaddr l₂ :=
  List.map_append _ l₁ l₂

theorem rawOf_length (inetaddr : IPAddr → α) (l : List IPAddr) :
    (rawOf inetaddr l).length = l.length :=
  List.length_map l _

theorem famIdxs_singleton (ctx : NetCtx) (f : Fam) (ip : IPAddr) (m : Nat) :
    famIdxs ctx f [ip] m = if famOf ctx ip = some f then [m] else [] := by
  rw [famIdxs, famIdxs]
  simp

theorem famOf_v4 {ctx : NetCtx} {ip : IPAddr} (h4 : ipv4only ctx ip = true) :
    famOf ctx ip = some Fam.v4 := by
  rw [famOf, if_pos h4]

theorem famOf_v6 {ctx : NetCtx} {ip : IPAddr} (h4 : ipv4only ctx ip = false)
    (h6 : ipv6only ctx ip = true) : famOf ctx ip = some Fam.v6 := by
  rw [famOf]
  simp [h4, h6]

theorem fbOf_append_one {ctx : NetCtx} (pref : List IPAddr) (ip : IPAddr)
    (hpref : ∀ p ∈ pref, (famOf ctx p).isSome) (f : Fam) (hip : famOf ctx ip = some f) :
    fbOf ctx (pref ++ [ip])
      = if (fbOf ctx pref).isNone
          then (match f with | Fam.v4 => some Fam.v6 | Fam.v6 => some Fam.v4)
          else fbOf ctx pref := by
  cases pref with
  | nil =>
    cases f with
    | v4 =>
      rw [List.nil_append]
      simp [fbOf, hip]
    | v6 =>
      rw [List.nil_append]
      simp [fbOf, hip]
  | cons p t =>
    have hps : (famOf ctx p).isSome := hpref p (List.mem_cons_self p t)
    obtain ⟨fp, hfp⟩ := Option.isSome_iff_exists.mp hps
    cases f <;> cases fp <;> simp [fbOf, hfp]

theorem tagStep_stateOf (ctx : NetCtx) (filt : Option (IPAddr → Bool))
    (inetaddr : IPAddr → α) (pref : List IPAddr) (ip : IPAddr)
    (hpref : ∀ p ∈ pref, (famOf ctx p).isSome) :
    tagStep ctx filt inetaddr (stateOf ctx inetaddr pref) ip
      = if keeps ctx filt ip then stateOf ctx inetaddr (pref ++ [ip])
        else stateOf ctx inetaddr pref := by
  unfold tagStep
  have hguard : (match filt with | some f => !(f ip) | none => false)
      = !(passes filt ip) := by
    cases filt <;> rfl
  rw [hguard]
  by_cases hp : passes filt ip = true
  · rw [hp]
    simp only [Bool.not_true, Bool.false_eq_true, if_false]
    by_cases h4 : ipv4only ctx ip = true
    · rw [if_pos h4]
      have hk : keeps ctx filt ip = true := by simp [keeps, hp, h4]
      rw [if_pos hk]
      have hfam : famOf ctx ip = some Fam.v4 := famOf_v4 h4
      rw [stateOf, stateOf]
      simp only [TagState.mk.injEq]
      refine ⟨?_, ?_, ?_, ?_⟩
      · rw [rawOf_append]
        rfl
      · rw [famIdxs_append, famIdxs_singleton, if_pos hfam, rawOf_length]
        simp
      · rw [famIdxs_append, famIdxs_singleton, if_neg (by simp [hfam])]
        simp
      · rw [fbOf_append_one pref ip hpref Fam.v4 hfam]
    · rw [if_neg h4]
      by_cases h6 : ipv6only ctx ip = true
      · rw [if_pos h6]
        have hk : keeps ctx filt ip = true := by simp [keeps, hp, h6]
        rw [if_pos hk]
        have hfam : famOf ctx ip = some Fam.v6 :=
          famOf_v6 (Bool.not_eq_true _ ▸ h4) h6
        rw [stateOf, stateOf]
        simp only [TagState.mk.injEq]
        refine ⟨?_, ?_, ?_, ?_⟩
        · rw [rawOf_append]
          rfl
        · rw [famIdxs_append, famIdxs_singleton, if_neg (by simp [hfam])]
          simp
        · rw [famIdxs_append, famIdxs_singleton, if_pos hfam, rawOf_length]
          simp
        · rw [fbOf_append_one pref ip hpref Fam.v6 hfam]
      · rw [if_neg h6]
        have hk : ¬(keeps ctx filt ip = true) := by
          simp [keeps, hp, h4, h6]
        rw [if_neg hk]
  · have hp2 : passes filt ip = false := Bool.not_eq_true _ ▸ hp
    rw [hp2]
    simp only [Bool.not_false, if_true]
    have hk : ¬(keeps ctx filt ip = true) := by simp [keeps, hp2]
    rw [if_neg hk]

theorem foldl_tagStep (ctx : NetCtx) (filt : Option (IPAddr → Bool))
    (inetaddr : IPAddr → α) :
    ∀ (ips pref : List IPAddr), (∀ p ∈ pref, (famOf ctx p).isSome) →
    ips.foldl (tagStep ctx filt inetaddr) (stateOf ctx inetaddr pref)
      = stateOf ctx inetaddr (pref ++ retained ctx filt ips) := by
  intro ips
  induction ips with
  | nil =>
    intro pref _
    simp [retained]
  | cons ip t ih =>
    intro pref hpref
    rw [List.foldl_cons, tagStep_stateOf ctx filt inetaddr pref ip hpref]
    by_cases hk : keeps ctx filt ip = true
    · rw [if_pos hk]
      have hfs : (famOf ctx ip).isSome := famOf_isSome_of_keeps hk
      have hpref2 : ∀ p ∈ pref ++ [ip], (famOf ctx p).isSome := by
        intro p hp
        rcases List.mem_append.mp hp with h1 | h2
        · exact hpref p h1
        · have : p = ip := List.mem_singleton.mp h2
          subst this
          exact hfs
      rw [ih (pref ++ [ip]) hpref2, retained_cons, if_pos hk, List.append_assoc]
      rfl
    · rw [if_neg hk, ih pref hpref, retained_cons, if_neg hk]

theorem foldl_tagStep_init (ctx : NetCtx) (filt : Option (IPAddr → Bool))
    (inetaddr : IPAddr → α) (ips : List IPAddr) :
    ips.foldl (tagStep ctx filt inetaddr) initTagState
      = stateOf ctx inetaddr (retained ctx filt ips) := by
  have h0 : (initTagState : TagState α) = stateOf ctx inetaddr [] := rfl
  rw [h0, foldl_tagStep ctx filt inetaddr ips [] (by intro p hp; cases hp)]
  rfl

theorem fbOf_retained_isSome {ctx : NetCtx} {filt : Option (IPAddr → Bool)}
    {ips : List IPAddr} (hne : retained ctx filt ips ≠ []) :
    (fbOf ctx (retained ctx filt ips)).isSome := by
  cases hR : retained ctx filt ips with
  | nil => exact absurd hR hne
  | cons r t =>
    have hmem : r ∈ retained ctx filt ips := by
      rw [hR]
      exact List.mem_cons_self r t
    obtain ⟨f, hf⟩ := Option.isSome_iff_exists.mp (mem_retained_famOf r hmem)
    rw [fbOf, hf]
    cases f <;> simp

theorem famIdxs_bound {ctx : NetCtx} {f : Fam} {l : List IPAddr} :
    ∀ j ∈ famIdxs ctx f l 0, j < l.length := by
  intro j hj
  have := famIdxs_mem_lt j hj
  omega

theorem finishTag_isSome {s : TagState α} {i : Nat}
    (hi : i < s.addrs.length) (hfb : s.fallbacks.isSome)
    (h4 : ∀ j ∈ s.v4Addrs, j < s.addrs.length)
    (h6 : ∀ j ∈ s.v6Addrs, j < s.addrs.length) :
    (finishTag s i).isSome := by
  unfold finishTag
  cases hmi : modifyIdx? s.addrs i (fun a => { a with single := true }) with
  | none =>
    have hsm : (modifyIdx? s.addrs i (fun a => { a with single := true })).isSome :=
      modifyIdx?_isSome.mpr hi
    rw [hmi] at hsm
    simp at hsm
  | some addrs1 =>
    obtain ⟨fam, hfam⟩ := Option.isSome_iff_exists.mp hfb
    rw [hfam]
    simp only []
    have hbound : ∀ j ∈ (match fam with | Fam.v4 => s.v4Addrs | Fam.v6 => s.v6Addrs),
        j < addrs1.length := by
      rw [modifyIdx?_length hmi]
      cases fam
      · exact h4
      · exact h6
    have hsf := setFallbacks_isSome hbound
    cases hsf2 : setFallbacks addrs1
        (match fam with | Fam.v4 => s.v4Addrs | Fam.v6 => s.v6Addrs) with
    | none => rw [hsf2] at hsf; simp at hsf
    | some a2 => simp [hsf2]

theorem finishTag_second_none {s : TagState α} {i : Nat} {p : addrList α × Option NetError}
    (h : finishTag s i = some p) : p.2 = none := by
  unfold finishTag at h
  cases hmi : modifyIdx? s.addrs i (fun a => { a with single := true }) with
  | none => rw [hmi] at h; exact absurd h (by simp)
  | some addrs1 =>
    rw [hmi] at h
    cases hfb : s.fallbacks with
    | none => rw [hfb] at h; exact absurd h (by simp)
    | some fam =>
      rw [hfb] at h
      simp only [] at h
      cases fam with
      | v4 =>
        simp only [] at h
        cases hsf : setFallbacks addrs1 s.v4Addrs with
        | none => rw [hsf] at h; exact absurd h (by simp)
        | some a2 =>
          rw [hsf] at h
          injection h with h1
          subst h1
          rfl
      | v6 =>
        simp only [] at h
        cases hsf : setFallbacks addrs1 s.v6Addrs with
        | none => rw [hsf] at h; exact absurd h (by simp)
        | some a2 =>
          rw [hsf] at h
          injection h with h1
          subst h1
          rfl

/-- C10: filterAndTagAddrs never reaches one of its embedded panic
values on any platform context, filter, record sequence, or endpoint
constructor: the fallback-tagging loop runs only when a record was
retained, so the fallbacks pointer is non-nil there, and every index
write is in bounds. -/
theorem filterAndTagAddrs_total (ctx : NetCtx) (filt : Option (IPAddr → Bool))
    (ips : List IPAddr) (inetaddr : IPAddr → α) :
    (filterAndTagAddrs ctx filt ips inetaddr).isSome := by
  simp only [filterAndTagAddrs, foldl_tagStep_init, stateOf]
  have hb4 : ∀ j ∈ famIdxs ctx Fam.v4 (retained ctx filt ips) 0,
      j < (rawOf inetaddr (retained ctx filt ips)).length := by
    intro j hj
    rw [rawOf_length]
    exact famIdxs_bound j hj
  have hb6 : ∀ j ∈ famIdxs ctx Fam.v6 (retained ctx filt ips) 0,
      j < (rawOf inetaddr (retained ctx filt ips)).length := by
    intro j hj
    rw [rawOf_length]
    exact famIdxs_bound j hj
  cases hv4 : famIdxs ctx Fam.v4 (retained ctx filt ips) 0 with
  | cons i rest4 =>
    simp only []
    have hRne : retained ctx filt ips ≠ [] := by
      intro hR
      rw [hR] at hv4
      simp [famIdxs] at hv4
    apply finishTag_isSome
    · exact hb4 i (by rw [hv4]; exact List.mem_cons_self i rest4)
    · exact fbOf_retained_isSome hRne
    · rw [hv4] at hb4
      exact hb4
    · exact hb6
  | nil =>
    cases hv6 : famIdxs ctx Fam.v6 (retained ctx filt ips) 0 with
    | cons i rest6 =>
      simp only []
      have hRne : retained ctx filt ips ≠ [] := by
        intro hR
        rw [hR] at hv6
        simp [famIdxs] at hv6
      apply finishTag_isSome
      · exact hb6 i (by rw [hv6]; exact List.mem_cons_self i rest6)
      · exact fbOf_retained_isSome hRne
      · rw [hv4] at hb4
        exact hb4
      · rw [hv6] at hb6
        exact hb6
    | nil => simp

/-- Destructor for a successful run of filterAndTagAddrs: the final list
arises from the untagged endpoint list of the retained records by
setting the single tag at the first v4 position (or, failing that, the
first v6 position) and then setting the fallback tag at every position
of the family opposite to the first retained record. -/
theorem filterAndTag_success {ctx : NetCtx} {filt : Option (IPAddr → Bool)}
    {ips : List IPAddr} {inetaddr : IPAddr → α} {addrs : addrList α}
    (h : filterAndTagAddrs ctx filt ips inetaddr = some (addrs, none)) :
    ∃ i0 fam addrs1,
      ((famIdxs ctx Fam.v4 (retained ctx filt ips) 0).head? = some i0
        ∨ (famIdxs ctx Fam.v4 (retained ctx filt ips) 0 = []
            ∧ (famIdxs ctx Fam.v6 (retained ctx filt ips) 0).head? = some i0))
      ∧ fbOf ctx (retained ctx filt ips) = some fam
      ∧ modifyIdx? (rawOf inetaddr (retained ctx filt ips)) i0
          (fun a => { a with single := true }) = some addrs1
      ∧ setFallbacks addrs1 (famIdxs ctx fam (retained ctx filt ips) 0) = some addrs := by
  simp only [filterAndTagAddrs, foldl_tagStep_init, stateOf] at h
  have main : ∀ i0, ((famIdxs ctx Fam.v4 (retained ctx filt ips) 0).head? = some i0
        ∨ (famIdxs ctx Fam.v4 (retained ctx filt ips) 0 = []
            ∧ (famIdxs ctx Fam.v6 (retained ctx filt ips) 0).head? = some i0)) →
      finishTag (TagState.mk (rawOf inetaddr (retained ctx filt ips))
        (famIdxs ctx Fam.v4 (retained ctx filt ips) 0)
        (famIdxs ctx Fam.v6 (retained ctx filt ips) 0)
        (fbOf ctx (retained ctx filt ips))) i0 = some (addrs, none) →
      ∃ i0 fam addrs1,
        ((famIdxs ctx Fam.v4 (retained ctx filt ips) 0).head? = some i0
          ∨ (famIdxs ctx Fam.v4 (retained ctx filt ips) 0 = []
              ∧ (famIdxs ctx Fam.v6 (retained ctx filt ips) 0).head? = some i0))
        ∧ fbOf ctx (retained ctx filt ips) = some fam
        ∧ modifyIdx? (rawOf inetaddr (retained ctx filt ips)) i0
            (fun a => { a with single := true }) = some addrs1
        ∧ setFallbacks addrs1 (famIdxs ctx fam (retained ctx filt ips) 0) = some addrs := by
    intro i0 hi0 hft
    unfold finishTag at hft
    cases hmi : modifyIdx? (rawOf inetaddr (retained ctx filt ips)) i0
        (fun a => { a with single := true }) with
    | none => rw [hmi] at hft; exact absurd hft (by simp)
    | some addrs1 =>
      rw [hmi] at hft
      cases hfb : fbOf ctx (retained ctx filt ips) with
      | none => rw [hfb] at hft; exact absurd hft (by simp)
      | some fam =>
        rw [hfb] at hft
        simp only [] at hft
        cases fam with
        | v4 =>
          simp only [] at hft
          cases hsf : setFallbacks addrs1 (famIdxs ctx Fam.v4 (retained ctx filt ips) 0) with
          | none => rw [hsf] at hft; exact absurd hft (by simp)
          | some a2 =>
            rw [hsf] at hft
            have h2 : a2 = addrs := by
              injection hft with hh
              exact (Prod.mk.injEq _ _ _ _ ▸ hh).1
            subst h2
            exact ⟨i0, Fam.v4, addrs1, hi0, rfl, hmi, hsf⟩
        | v6 =>
          simp only [] at hft
          cases hsf : setFallbacks addrs1 (famIdxs ctx Fam.v6 (retained ctx filt ips) 0) with
          | none => rw [hsf] at hft; exact absurd hft (by simp)
          | some a2 =>
            rw [hsf] at hft
            have h2 : a2 = addrs := by
              injection hft with hh
              exact (Prod.mk.injEq _ _ _ _ ▸ hh).1
            subst h2
            exact ⟨i0, Fam.v6, addrs1, hi0, rfl, hmi, hsf⟩
  cases hv4 : famIdxs ctx Fam.v4 (retained ctx filt ips) 0 with
  | cons i rest4 =>
    rw [hv4] at h
    simp only [] at h
    have := main i (by rw [hv4]; left; rfl)
    rw [hv4] at this
    exact this h
  | nil =>
    rw [hv4] at h
    cases hv6 : famIdxs ctx Fam.v6 (retained ctx filt ips) 0 with
    | cons i rest6 =>
      rw [hv6] at h
      simp only [] at h
      have := main i (by rw [hv4, hv6]; right; exact ⟨rfl, rfl⟩)
      rw [hv4, hv6] at this
      exact this h
    | nil =>
      rw [hv6] at h
      simp only [] at h
      exact absurd h (by simp)

theorem retained_eq_nil_iff {ctx : NetCtx} {filt : Option (IPAddr → Bool)}
    {ips : List IPAddr} :
    retained ctx filt ips = []
      ↔ ∀ ip ∈ ips, passes filt ip = true →
          ipv4only ctx ip = false ∧ ipv6only ctx ip = false := by
  rw [retained, List.filter_eq_nil_iff]
  constructor
  · intro h ip hip hp
    have hk := h ip hip
    rw [keeps, hp] at hk
    simp only [Bool.true_and, Bool.or_eq_true, not_or, Bool.not_eq_true] at hk
    exact hk
  · intro h ip hip
    rw [keeps]
    by_cases hp : passes filt ip = true
    · obtain ⟨h4, h6⟩ := h ip hip hp
      simp [hp, h4, h6]
    · have hp2 : passes filt ip = false := Bool.not_eq_true _ ▸ hp
      simp [hp2]

/-- C4: filterAndTagAddrs returns the distinguished no suitable address
error together with an empty list exactly when, after applying the
optional filter, no input record qualifies as v4-capable or v6-capable;
in particular this always holds for an empty input sequence. -/
theorem filterAndTagAddrs_noSuitable_iff (ctx : NetCtx) (filt : Option (IPAddr → Bool))
    (ips : List IPAddr) (inetaddr : IPAddr → α) :
    filterAndTagAddrs ctx filt ips inetaddr = some ([], some NetError.noSuitableAddress)
      ↔ ∀ ip ∈ ips, passes filt ip = true →
          ipv4only ctx ip = false ∧ ipv6only ctx ip = false := by
  rw [← retained_eq_nil_iff]
  constructor
  · intro h
    by_contra hne
    simp only [filterAndTagAddrs, foldl_tagStep_init, stateOf] at h
    cases hv4 : famIdxs ctx Fam.v4 (retained ctx filt ips) 0 with
    | cons i rest4 =>
      rw [hv4] at h
      simp only [] at h
      have := finishTag_second_none h
      simp at this
    | nil =>
      rw [hv4] at h
      cases hv6 : famIdxs ctx Fam.v6 (retained ctx filt ips) 0 with
      | cons i rest6 =>
        rw [hv6] at h
        simp only [] at h
        have := finishTag_second_none h
        simp at this
      | nil =>
        apply hne
        cases hR : retained ctx filt ips with
        | nil => rfl
        | cons r t =>
          have hmem : r ∈ retained ctx filt ips := by
            rw [hR]
            exact List.mem_cons_self r t
          obtain ⟨f, hf⟩ := Option.isSome_iff_exists.mp (mem_retained_famOf r hmem)
          cases f with
          | v4 =>
            rw [hR, famIdxs, if_pos hf] at hv4
            simp at hv4
          | v6 =>
            rw [hR, famIdxs, if_pos hf] at hv6
            simp at hv6
  · intro h
    simp [filterAndTagAddrs, foldl_tagStep_init, stateOf, h, famIdxs]

theorem rawOf_filter_single (inetaddr : IPAddr → α) (l : List IPAddr) :
    (rawOf inetaddr l).filter (fun a => a.single) = [] := by
  induction l with
  | nil => rfl
  | cons ip t ih =>
    rw [show rawOf inetaddr (ip :: t)
        = { Addr := inetaddr ip, single := false, fallback := false } :: rawOf inetaddr t
      from rfl]
    rw [List.filter_cons]
    simp [ih]

theorem modifyIdx?_filter_single {l : addrList α} {i : Nat} {l' : addrList α}
    (h : modifyIdx? l i (fun a => { a with single := true }) = some l')
    (hall : l.filter (fun a => a.single) = []) :
    ∃ a, l.get? i = some a
      ∧ l'.filter (fun a => a.single) = [{ a with single := true }] := by
  induction l generalizing i l' with
  | nil => simp [modifyIdx?] at h
  | cons b t ih =>
    cases i with
    | zero =>
      rw [modifyIdx?] at h
      injection h with h1
      subst h1
      cases hb : b.single with
      | true =>
        rw [List.filter_cons] at hall
        simp [hb] at hall
      | false =>
        rw [List.filter_cons] at hall
        simp only [hb, Bool.false_eq_true, if_false] at hall
        refine ⟨b, rfl, ?_⟩
        rw [List.filter_cons]
        simp [hall]
    | succ n =>
      rw [modifyIdx?] at h
      cases hm : modifyIdx? t n (fun a => { a with single := true }) with
      | none => rw [hm] at h; exact absurd h (by simp)
      | some t' =>
        rw [hm] at h
        injection h with h1
        subst h1
        cases hb : b.single with
        | true =>
          rw [List.filter_cons] at hall
          simp [hb] at hall
        | false =>
          rw [List.filter_cons] at hall
          simp only [hb, Bool.false_eq_true, if_false] at hall
          obtain ⟨a, hga, hfa⟩ := ih hm hall
          refine ⟨a, by simpa using hga, ?_⟩
          rw [List.filter_cons]
          simp [hb, hfa]

theorem modifyIdx?_fb_preserve {l l' : addrList α} {i : Nat}
    (h : modifyIdx? l i (fun a => { a with fallback := true }) = some l') :
    (l'.filter (fun a => a.single)).map (fun a => a.Addr)
        = (l.filter (fun a => a.single)).map (fun a => a.Addr)
      ∧ (l'.filter (fun a => a.single)).length
        = (l.filter (fun a => a.single)).length := by
  induction l generalizing i l' with
  | nil => simp [modifyIdx?] at h
  | cons b t ih =>
    cases i with
    | zero =>
      rw [modifyIdx?] at h
      injection h with h1
      subst h1
      rw [List.filter_cons, List.filter_cons]
      cases hb : b.single with
      | true => simp [hb]
      | false => simp [hb]
    | succ n =>
      rw [modifyIdx?] at h
      cases hm : modifyIdx? t n (fun a => { a with fallback := true }) with
      | none => rw [hm] at h; exact absurd h (by simp)
      | some t' =>
        rw [hm] at h
        injection h with h1
        subst h1
        obtain ⟨hmap, hlen⟩ := ih hm
        rw [List.filter_cons, List.filter_cons]
        cases hb : b.single with
        | true => simp [hb, hmap, hlen]
        | false => simp [hb, hmap, hlen]

theorem setFallbacks_single_preserve {l l' : addrList α} {idxs : List Nat}
    (h : setFallbacks l idxs = some l') :
    (l'.filter (fun a => a.single)).map (fun a => a.Addr)
        = (l.filter (fun a => a.single)).map (fun a => a.Addr)
      ∧ (l'.filter (fun a => a.single)).length
        = (l.filter (fun a => a.single)).length := by
  induction idxs generalizing l with
  | nil =>
    rw [setFallbacks] at h
    injection h with h1
    subst h1
    exact ⟨rfl, rfl⟩
  | cons i rest ih =>
    rw [setFallbacks] at h
    cases hm : modifyIdx? l i (fun a => { a with fallback := true }) with
    | none => rw [hm] at h; exact absurd h (by simp)
    | some l1 =>
      rw [hm] at h
      obtain ⟨hm1, hl1⟩ := modifyIdx?_fb_preserve hm
      obtain ⟨hm2, hl2⟩ := ih h
      exact ⟨hm2.trans hm1, hl2.trans hl1⟩

theorem getSingle_foldl (l : addrList α) (o : Option α) (c : Nat) :
    l.foldl (fun (acc : Option α × Nat) a =>
        if a.single then (some a.Addr, acc.2 + 1) else acc) (o, c)
      = (((l.filter (fun a => a.single)).map (fun a => some a.Addr)).getLastD o,
         c + (l.filter (fun a => a.single)).length) := by
  induction l generalizing o c with
  | nil => simp
  | cons b t ih =>
    rw [List.foldl_cons]
    cases hb : b.single with
    | true =>
      have hacc : (if true = true then (some b.Addr, (o, c).2 + 1) else (o, c))
          = (some b.Addr, c + 1) := by simp
      rw [hacc, ih, List.filter_cons]
      simp only [hb, if_true, List.map_cons, List.getLastD_cons, List.length_cons,
        Prod.mk.injEq]
      exact ⟨trivial, by omega⟩
    | false =>
      have hacc : (if false = true then (some b.Addr, (o, c).2 + 1) else (o, c))
          = (o, c) := by simp
      rw [hacc, ih, List.filter_cons]
      simp [hb]

theorem getSingle_of_filter {l : addrList α} {a : addrWithTags α}
    (h : l.filter (fun a => a.single) = [a]) : getSingle l = some a.Addr := by
  rw [getSingle, getSingle_foldl, h]
  simp

theorem length_partition (l : addrList α) :
    (getAll l).length = (getPrimaries l).length + (getFallbacks l).length := by
  rw [getAll, getPrimaries, getFallbacks]
  simp only [List.length_map]
  induction l with
  | nil => rfl
  | cons a t ih =>
    rw [List.filter_cons, List.filter_cons]
    cases ha : a.fallback with
    | true =>
      simp only [List.length_cons, ha, Bool.not_true, Bool.false_eq_true, if_false, if_true,
        List.length_cons]
      omega
    | false =>
      simp only [List.length_cons, ha, Bool.not_false, Bool.false_eq_true, if_false, if_true,
        List.length_cons]
      omega

/-- C1: whenever filterAndTagAddrs succeeds, exactly one element of the
result carries the single tag, getSingle returns that element without
reaching its fatal path, and the length of getAll equals the length of
getPrimaries plus the length of getFallbacks. -/
theorem filterAndTagAddrs_c1 {ctx : NetCtx} {filt : Option (IPAddr → Bool)}
    {ips : List IPAddr} {inetaddr : IPAddr → α} {addrs : addrList α}
    (h : filterAndTagAddrs ctx filt ips inetaddr = some (addrs, none)) :
    (addrs.filter (fun a => a.single)).length = 1
    ∧ (∃ a ∈ addrs, a.single = true ∧ getSingle addrs = some a.Addr)
    ∧ (getAll addrs).length = (getPrimaries addrs).length + (getFallbacks addrs).length := by
  obtain ⟨i0, fam, addrs1, hi0, hfb, hmi, hsf⟩ := filterAndTag_success h
  have hraw : (rawOf inetaddr (retained ctx filt ips)).filter (fun a => a.single) = [] :=
    rawOf_filter_single _ _
  obtain ⟨a0, hga, hfa⟩ := modifyIdx?_filter_single hmi hraw
  obtain ⟨hmap, hlen⟩ := setFallbacks_single_preserve hsf
  rw [hfa] at hmap hlen
  have hlen1 : (addrs.filter (fun a => a.single)).length = 1 := by simpa using hlen
  obtain ⟨b, hbeq⟩ := List.length_eq_one.mp hlen1
  have hbmem : b ∈ addrs.filter (fun a => a.single) := by
    rw [hbeq]
    exact List.mem_singleton.mpr rfl
  refine ⟨hlen1, ⟨b, List.mem_of_mem_filter hbmem, ?_, getSingle_of_filter hbeq⟩,
    length_partition addrs⟩
  have := List.of_mem_filter hbmem
  simpa using this

theorem mem_of_get? {l : List β} {n : Nat} {b : β} (h : l.get? n = some b) : b ∈ l := by
  induction l generalizing n with
  | nil => simp at h
  | cons x t ih =>
    cases n with
    | zero =>
      rw [List.get?_cons_zero] at h
      injection h with h1
      subst h1
      exact List.mem_cons_self x t
    | succ m =>
      rw [List.get?_cons_succ] at h
      exact List.mem_cons_of_mem x (ih h)

theorem rawOf_get? (inetaddr : IPAddr → α) (l : List IPAddr) (j : Nat) :
    (rawOf inetaddr l).get? j
      = (l.get? j).map
          (fun ip => { Addr := inetaddr ip, single := false, fallback := false }) := by
  rw [rawOf]
  exact List.get?_map _ _ _

theorem modifyIdx?_map_addr {l l' : addrList α} {i : Nat}
    {f : addrWithTags α → addrWithTags α}
    (h : modifyIdx? l i f = some l') (hf : ∀ a, (f a).Addr = a.Addr) :
    l'.map (fun a => a.Addr) = l.map (fun a => a.Addr) := by
  induction l generalizing i l' with
  | nil => simp [modifyIdx?] at h
  | cons b t ih =>
    cases i with
    | zero =>
      rw [modifyIdx?] at h
      injection h with h1
      subst h1
      simp [hf b]
    | succ n =>
      rw [modifyIdx?] at h
      cases hm : modifyIdx? t n f with
      | none => rw [hm] at h; exact absurd h (by simp)
      | some t' =>
        rw [hm] at h
        injection h with h1
        subst h1
        simp [ih hm]

theorem setFallbacks_map_addr {l l' : addrList α} {idxs : List Nat}
    (h : setFallbacks l idxs = some l') :
    l'.map (fun a => a.Addr) = l.map (fun a => a.Addr) := by
  induction idxs generalizing l with
  | nil =>
    rw [setFallbacks] at h
    injection h with h1
    subst h1
    rfl
  | cons i rest ih =>
    rw [setFallbacks] at h
    cases hm : modifyIdx? l i (fun a => { a with fallback := true }) with
    | none => rw [hm] at h; exact absurd h (by simp)
    | some l1 =>
      rw [hm] at h
      exact (ih h).trans (modifyIdx?_map_addr hm (fun a => rfl))

theorem famOf_ne_iff {ctx : NetCtx} {r0 r : IPAddr} {t0 : List IPAddr} {fam : Fam}
    (hfb : fbOf ctx (r0 :: t0) = some fam) (hr : (famOf ctx r).isSome) :
    (famOf ctx r = some fam ↔ ¬(famOf ctx r = famOf ctx r0)) := by
  rw [fbOf] at hfb
  obtain ⟨f, hf⟩ := Option.isSome_iff_exists.mp hr
  cases hf0 : famOf ctx r0 with
  | none => rw [hf0] at hfb; exact absurd hfb (by simp)
  | some f0 =>
    rw [hf0] at hfb
    rw [hf]
    cases f0 with
    | v4 =>
      simp only [] at hfb
      injection hfb with hfam
      subst hfam
      cases f <;> simp
    | v6 =>
      simp only [] at hfb
      injection hfb with hfam
      subst hfam
      cases f <;> simp

theorem mem_famIdxs_zero_iff {ctx : NetCtx} {fam : Fam} {l : List IPAddr} {j : Nat}
    {r : IPAddr} (hget : l.get? j = some r) :
    (j ∈ famIdxs ctx fam l 0 ↔ famOf ctx r = some fam) := by
  rw [mem_famIdxs]
  constructor
  · rintro ⟨j', hj', ip, hg, hf⟩
    have hjj : j' = j := by omega
    subst hjj
    rw [hget] at hg
    injection hg with hh
    subst hh
    exact hf
  · intro hf
    exact ⟨j, by omega, r, hget, hf⟩

theorem v4_v6_exclusive {ctx : NetCtx} {ip : IPAddr} (h4 : ipv4only ctx ip = true) :
    ipv6only ctx ip = false := by
  rw [ipv4only, Bool.and_eq_true] at h4
  obtain ⟨_, hsome⟩ := h4
  rw [ipv6only]
  cases hTo : To4 ip.IP with
  | none => rw [hTo] at hsome; simp at hsome
  | some v => simp [hTo]

theorem decide_famOf_v4 (ctx : NetCtx) (ip : IPAddr) :
    decide (famOf ctx ip = some Fam.v4) = ipv4only ctx ip := by
  cases h4 : ipv4only ctx ip with
  | true => simp [famOf, h4]
  | false =>
    by_cases h6 : ipv6only ctx ip = true <;> simp [famOf, h4, h6]

theorem decide_famOf_v6 (ctx : NetCtx) (ip : IPAddr) :
    decide (famOf ctx ip = some Fam.v6) = ipv6only ctx ip := by
  cases h4 : ipv4only ctx ip with
  | true =>
    have h6 := v4_v6_exclusive h4
    simp [famOf, h4, h6]
  | false =>
    by_cases h6 : ipv6only ctx ip = true <;> simp [famOf, h4, h6]

theorem findIdxO_congr {l : List β} {p q : β → Bool} (h : ∀ b, p b = q b) :
    findIdxO p l = findIdxO q l := by
  induction l with
  | nil => rfl
  | cons x t ih => rw [findIdxO, findIdxO, h x, ih]

theorem findIdxO_eq_some_of {l : List β} {p : β → Bool} {i : Nat}
    (hget : ∃ b, l.get? i = some b ∧ p b = true)
    (hbefore : ∀ j, j < i → ∀ b, l.get? j = some b → p b = false) :
    findIdxO p l = some i := by
  induction l generalizing i with
  | nil =>
    obtain ⟨b, hb, _⟩ := hget
    simp at hb
  | cons x t ih =>
    cases i with
    | zero =>
      obtain ⟨b, hb, hp⟩ := hget
      rw [List.get?_cons_zero] at hb
      injection hb with h1
      subst h1
      rw [findIdxO, if_pos hp]
    | succ n =>
      have hx : p x = false := hbefore 0 (by omega) x rfl
      rw [findIdxO, if_neg (by simp [hx])]
      have hrec : findIdxO p t = some n := by
        apply ih
        · obtain ⟨b, hb, hp⟩ := hget
          rw [List.get?_cons_succ] at hb
          exact ⟨b, hb, hp⟩
        · intro j hj b hb
          exact hbefore (j + 1) (by omega) b (by simpa using hb)
      rw [hrec]
      rfl

theorem famIdxs_head? (ctx : NetCtx) (f : Fam) (l : List IPAddr) (n : Nat) :
    (famIdxs ctx f l n).head?
      = (findIdxO (fun ip => decide (famOf ctx ip = some f)) l).map (n + ·) := by
  induction l generalizing n with
  | nil => simp [famIdxs, findIdxO]
  | cons ip t ih =>
    rw [famIdxs, findIdxO]
    by_cases hfam : famOf ctx ip = some f
    · rw [if_pos hfam, if_pos (by simp [hfam])]
      simp
    · rw [if_neg hfam, if_neg (by simp [hfam]), List.nil_append, ih (n + 1)]
      cases hf : findIdxO (fun ip => decide (famOf ctx ip = some f)) t with
      | none => simp
      | some j =>
        simp only [Option.map_some']
        rw [Option.some_inj]
        omega

/-- C2: whenever filterAndTagAddrs succeeds, the output lists exactly
the retained records in their original relative order (no reordering),
and an element carries the fallback tag exactly when its record's
family (v4-capable versus v6-capable) differs from the family of the
first retained record. -/
theorem filterAndTagAddrs_c2 {ctx : NetCtx} {filt : Option (IPAddr → Bool)}
    {ips : List IPAddr} {inetaddr : IPAddr → α} {addrs : addrList α}
    (h : filterAndTagAddrs ctx filt ips inetaddr = some (addrs, none)) :
    addrs.map (fun a => a.Addr) = (retained ctx filt ips).map inetaddr
    ∧ ∃ r0, (retained ctx filt ips).get? 0 = some r0
        ∧ ∀ j a r, addrs.get? j = some a → (retained ctx filt ips).get? j = some r →
            (a.fallback = true ↔ ¬(famOf ctx r = famOf ctx r0)) := by
  obtain ⟨i0, fam, addrs1, hi0, hfb, hmi, hsf⟩ := filterAndTag_success h
  have hmap : addrs.map (fun a => a.Addr) = (retained ctx filt ips).map inetaddr := by
    rw [setFallbacks_map_addr hsf, modifyIdx?_map_addr hmi (fun a => rfl), rawOf,
      List.map_map]
    rfl
  have hRne : retained ctx filt ips ≠ [] := by
    intro hR
    rw [hR] at hfb
    simp [fbOf] at hfb
  obtain ⟨r0, t0, hR⟩ : ∃ r0 t0, retained ctx filt ips = r0 :: t0 := by
    cases hRr : retained ctx filt ips with
    | nil => exact absurd hRr hRne
    | cons a b => exact ⟨a, b, rfl⟩
  refine ⟨hmap, r0, by rw [hR]; rfl, ?_⟩
  intro j a r hja hjr
  have hr : (famOf ctx r).isSome := mem_retained_famOf r (mem_of_get? hjr)
  have hiff := famOf_ne_iff (hR ▸ hfb) hr
  rw [← hiff, ← mem_famIdxs_zero_iff hjr]
  have hj1 := setFallbacks_get? hsf j
  have hj2 := modifyIdx?_get? hmi j
  have hj3 := rawOf_get? inetaddr (retained ctx filt ips) j
  rw [hjr] at hj3
  rw [hj3] at hj2
  rw [hj2] at hj1
  rw [hja] at hj1
  by_cases hmem : j ∈ famIdxs ctx fam (retained ctx filt ips) 0
  · rw [if_pos hmem] at hj1
    by_cases hji : j = i0
    · rw [if_pos hji] at hj1
      simp only [Option.map_some'] at hj1
      injection hj1 with ha
      rw [ha]
      simp [hmem]
    · rw [if_neg hji] at hj1
      simp only [Option.map_some'] at hj1
      injection hj1 with ha
      rw [ha]
      simp [hmem]
  · rw [if_neg hmem] at hj1
    by_cases hji : j = i0
    · rw [if_pos hji] at hj1
      simp only [Option.map_some'] at hj1
      injection hj1 with ha
      rw [ha]
      simp [hmem]
    · rw [if_neg hji] at hj1
      simp only [Option.map_some'] at hj1
      injection hj1 with ha
      rw [ha]
      simp [hmem]

theorem mem_of_head? {l : List β} {b : β} (h : l.head? = some b) : b ∈ l := by
  cases l with
  | nil => simp at h
  | cons x t =>
    rw [List.head?_cons] at h
    injection h with h1
    subst h1
    exact List.mem_cons_self x t

/-- C3: whenever filterAndTagAddrs succeeds, the single tag sits on the
first v4-capable retained record when one exists, and otherwise on the
first v6-capable retained record, independently of the input order and
of which family was classified primary or fallback. -/
theorem filterAndTagAddrs_c3 {ctx : NetCtx} {filt : Option (IPAddr → Bool)}
    {ips : List IPAddr} {inetaddr : IPAddr → α} {addrs : addrList α}
    (h : filterAndTagAddrs ctx filt ips inetaddr = some (addrs, none)) :
    findIdxO (fun a => a.single) addrs
      = if (retained ctx filt ips).any (fun ip => ipv4only ctx ip)
        then findIdxO (fun ip => ipv4only ctx ip) (retained ctx filt ips)
        else findIdxO (fun ip => ipv6only ctx ip) (retained ctx filt ips) := by
  obtain ⟨i0, fam, addrs1, hi0, hfb, hmi, hsf⟩ := filterAndTag_success h
  have hi0mem : i0 ∈ famIdxs ctx Fam.v4 (retained ctx filt ips) 0
      ∨ i0 ∈ famIdxs ctx Fam.v6 (retained ctx filt ips) 0 := by
    rcases hi0 with hA | ⟨_, hB⟩
    · exact Or.inl (mem_of_head? hA)
    · exact Or.inr (mem_of_head? hB)
  have hi0lt : i0 < (retained ctx filt ips).length := by
    rcases hi0mem with hm | hm
    · exact famIdxs_bound i0 hm
    · exact famIdxs_bound i0 hm
  obtain ⟨rr, hrr⟩ : ∃ rr, (retained ctx filt ips).get? i0 = some rr := by
    cases hg : (retained ctx filt ips).get? i0 with
    | none =>
      rw [List.get?_eq_none] at hg
      omega
    | some rr => exact ⟨rr, rfl⟩
  have hj1 := setFallbacks_get? hsf i0
  have hj2 := modifyIdx?_get? hmi i0
  have hj3 := rawOf_get? inetaddr (retained ctx filt ips) i0
  rw [hrr] at hj3
  rw [hj3, if_pos (rfl : i0 = i0)] at hj2
  rw [hj2] at hj1
  have hsing : ∃ b, addrs.get? i0 = some b ∧ b.single = true := by
    by_cases hm : i0 ∈ famIdxs ctx fam (retained ctx filt ips) 0
    · rw [if_pos hm] at hj1
      exact ⟨_, hj1, rfl⟩
    · rw [if_neg hm] at hj1
      exact ⟨_, hj1, rfl⟩
  have hbefore : ∀ j, j < i0 → ∀ b, addrs.get? j = some b → b.single = false := by
    intro j hj b hb
    have hk1 := setFallbacks_get? hsf j
    have hk2 := modifyIdx?_get? hmi j
    have hk3 := rawOf_get? inetaddr (retained ctx filt ips) j
    rw [if_neg (by omega : ¬(j = i0)), hk3] at hk2
    rw [hk2, hb] at hk1
    cases hrj : (retained ctx filt ips).get? j with
    | none =>
      rw [hrj] at hk1
      by_cases hm : j ∈ famIdxs ctx fam (retained ctx filt ips) 0
      · rw [if_pos hm] at hk1
        exact absurd hk1 (by simp)
      · rw [if_neg hm] at hk1
        exact absurd hk1 (by simp)
    | some rj =>
      rw [hrj] at hk1
      by_cases hm : j ∈ famIdxs ctx fam (retained ctx filt ips) 0
      · rw [if_pos hm] at hk1
        simp only [Option.map_some'] at hk1
        injection hk1 with hbb
        rw [hbb]
      · rw [if_neg hm] at hk1
        simp only [Option.map_some'] at hk1
        injection hk1 with hbb
        rw [hbb]
  have hfind : findIdxO (fun a => a.single) addrs = some i0 :=
    findIdxO_eq_some_of hsing hbefore
  rcases hi0 with hA | ⟨hv4nil, hB⟩
  · -- the v4 index list is non-empty: its head carries the single tag
    obtain ⟨j', hj', ip4, hg4, hf4⟩ := mem_famIdxs.mp (mem_of_head? hA)
    have hip4 : ipv4only ctx ip4 = true := by
      rw [← decide_famOf_v4 ctx ip4]
      simp [hf4]
    have hany : (retained ctx filt ips).any (fun ip => ipv4only ctx ip) = true :=
      List.any_eq_true.mpr ⟨ip4, mem_of_get? hg4, hip4⟩
    rw [hfind, if_pos hany]
    have hhead := famIdxs_head? ctx Fam.v4 (retained ctx filt ips) 0
    rw [hA, findIdxO_congr (fun ip => decide_famOf_v4 ctx ip)] at hhead
    cases hfi : findIdxO (fun ip => ipv4only ctx ip) (retained ctx filt ips) with
    | none => rw [hfi] at hhead; exact absurd hhead (by simp)
    | some k =>
      rw [hfi] at hhead
      simp only [Option.map_some'] at hhead
      injection hhead with hik
      rw [Option.some_inj]
      omega
  · -- no v4-capable record was retained
    have hnone : (retained ctx filt ips).any (fun ip => ipv4only ctx ip) = false := by
      rw [famIdxs_eq_nil_iff] at hv4nil
      rw [List.any_eq_false]
      intro ip hip hp
      have hne := hv4nil ip hip
      rw [← decide_famOf_v4 ctx ip] at hp
      simp at hp
      exact hne hp
    rw [hfind, if_neg (by simp [hnone])]
    have hhead := famIdxs_head? ctx Fam.v6 (retained ctx filt ips) 0
    rw [hB, findIdxO_congr (fun ip => decide_famOf_v6 ctx ip)] at hhead
    cases hfi : findIdxO (fun ip => ipv6only ctx ip) (retained ctx filt ips) with
    | none => rw [hfi] at hhead; exact absurd hhead (by simp)
    | some k =>
      rw [hfi] at hhead
      simp only [Option.map_some'] at hhead
      injection hhead with hik
      rw [Option.some_inj]
      omega

/-- C7: for every recognized network name whose preamble (the network
switch with address split and port parse) succeeds with a non-empty
host, if the host parses as a literal IPv4 address or, failing that, as
a literal IPv6 address, then resolveInternetAddrs returns a one-element
list whose sole element is tagged single and not fallback; the result
is the same for every DNS lookup capability and platform context, so
neither the lookup nor filterAndTagAddrs is consulted. -/
theorem resolveInternetAddrs_literal {exts : Externals} {net addr host : List Char}
    {portnum : Nat}
    (hpre : resolvePreamble exts net addr = some (Except.ok (host, portnum)))
    (hne : host ≠ [])
    (hlit : (exts.parseIPv4 host).isSome
      ∨ (exts.parseIPv4 host = none ∧ (exts.parseIPv6 host true).isSome)) :
    ∃ a : Addr, ∀ (lk : List Char → Option (List IPAddr)) (ctx : NetCtx),
      resolveInternetAddrs { exts with lookupIP := lk } ctx net addr
        = some ([{ Addr := a, single := true, fallback := false }], none) := by
  have hpre2 : ∀ lk : List Char → Option (List IPAddr),
      resolvePreamble { exts with lookupIP := lk } net addr
        = some (Except.ok (host, portnum)) := by
    intro lk
    exact hpre
  rcases hlit with h4 | ⟨h4none, h6⟩
  · obtain ⟨ip, hip⟩ := Option.isSome_iff_exists.mp h4
    refine ⟨inetaddrFor net portnum ⟨ip, []⟩, ?_⟩
    intro lk ctx
    unfold resolveInternetAddrs
    rw [hpre2 lk]
    simp only []
    rw [if_neg hne]
    have hip2 : ({ exts with lookupIP := lk } : Externals).parseIPv4 host = some ip := hip
    rw [hip2]
    rfl
  · obtain ⟨pz, hpz⟩ := Option.isSome_iff_exists.mp h6
    obtain ⟨ip, zone⟩ := pz
    refine ⟨inetaddrFor net portnum ⟨ip, zone⟩, ?_⟩
    intro lk ctx
    unfold resolveInternetAddrs
    rw [hpre2 lk]
    simp only []
    rw [if_neg hne]
    have h4b : ({ exts with lookupIP := lk } : Externals).parseIPv4 host = none := h4none
    have h6b : ({ exts with lookupIP := lk } : Externals).parseIPv6 host true
        = some (ip, zone) := hpz
    rw [h4b, h6b]
    rfl

/-- External capabilities used by the witnesses: a port parser that
accepts 80, a literal IPv4 parser that accepts 1.2.3.4, no IPv6
literals, and a failing DNS lookup. -/
def wExts : Externals :=
  { parsePort := fun _ p => if p = "80".toList then some 80 else none
    parseIPv4 := fun h => if h = "1.2.3.4".toList then some [1, 2, 3, 4] else none
    parseIPv6 := fun _ _ => none
    lookupIP := fun _ => none }

theorem resolveInternetAddrs_literal_witness :
    (resolvePreamble wExts ("tcp".toList) ("1.2.3.4:80".toList)
        = some (Except.ok ("1.2.3.4".toList, 80)))
    ∧ ("1.2.3.4".toList ≠ ([] : List Char))
    ∧ ((wExts.parseIPv4 ("1.2.3.4".toList)).isSome
        ∨ (wExts.parseIPv4 ("1.2.3.4".toList) = none
            ∧ (wExts.parseIPv6 ("1.2.3.4".toList) true).isSome))
    ∧ ∃ a : Addr, ∀ (lk : List Char → Option (List IPAddr)) (ctx : NetCtx),
        resolveInternetAddrs { wExts with lookupIP := lk } ctx ("tcp".toList)
            ("1.2.3.4:80".toList)
          = some ([{ Addr := a, single := true, fallback := false }], none) := by
  have h1 : resolvePreamble wExts ("tcp".toList) ("1.2.3.4:80".toList)
      = some (Except.ok ("1.2.3.4".toList, 80)) := by rfl
  exact ⟨h1, by decide, Or.inl (by decide),
    resolveInternetAddrs_literal h1 (by decide) (Or.inl (by decide))⟩

/- Concrete inputs for the tagging witnesses: a dual-stack platform, an
IPv4 loopback record followed by an IPv6 loopback record, and the TCP
endpoint constructor used by the repository's own tests. -/

def wCtx : NetCtx := ⟨true, true⟩

def wIps : List IPAddr :=
  [⟨[127, 0, 0, 1], []⟩, ⟨[0, 0, 0, 0, 0, 0, 0, 0, 0, 0, 0, 0, 0, 0, 0, 1], []⟩]

def wInet : IPAddr → Addr := fun ip => Addr.tcp ip.IP 5682 ip.Zone

def wOut : addrList Addr :=
  [⟨Addr.tcp [127, 0, 0, 1] 5682 [], true, false⟩,
   ⟨Addr.tcp [0, 0, 0, 0, 0, 0, 0, 0, 0, 0, 0, 0, 0, 0, 0, 1] 5682 [], false, true⟩]

theorem filterAndTagAddrs_c1_witness :
    (filterAndTagAddrs wCtx none wIps wInet = some (wOut, none))
    ∧ ((wOut.filter (fun a => a.single)).length = 1
       ∧ (∃ a ∈ wOut, a.single = true ∧ getSingle wOut = some a.Addr)
       ∧ (getAll wOut).length = (getPrimaries wOut).length + (getFallbacks wOut).length) := by
  have h1 : filterAndTagAddrs wCtx none wIps wInet = some (wOut, none) := by decide
  exact ⟨h1, filterAndTagAddrs_c1 h1⟩

theorem filterAndTagAddrs_c2_witness :
    (filterAndTagAddrs wCtx none wIps wInet = some (wOut, none))
    ∧ (wOut.map (fun a => a.Addr) = (retained wCtx none wIps).map wInet
       ∧ ∃ r0, (retained wCtx none wIps).get? 0 = some r0
           ∧ ∀ j a r, wOut.get? j = some a → (retained wCtx none wIps).get? j = some r →
               (a.fallback = true ↔ ¬(famOf wCtx r = famOf wCtx r0))) := by
  have h1 : filterAndTagAddrs wCtx none wIps wInet = some (wOut, none) := by decide
  exact ⟨h1, filterAndTagAddrs_c2 h1⟩

theorem filterAndTagAddrs_c3_witness :
    (filterAndTagAddrs wCtx none wIps wInet = some (wOut, none))
    ∧ findIdxO (fun a => a.single) wOut
        = if (retained wCtx none wIps).any (fun ip => ipv4only wCtx ip)
          then findIdxO (fun ip => ipv4only wCtx ip) (retained wCtx none wIps)
          else findIdxO (fun ip => ipv6only wCtx ip) (retained wCtx none wIps) := by
  have h1 : filterAndTagAddrs wCtx none wIps wInet = some (wOut, none) := by decide
  exact ⟨h1, filterAndTagAddrs_c3 h1⟩

end GoNet
